import Mathlib

/-!
Shallow embedding of `pre_commit_matlab/matlab_reflow_comments.py` and of the
parts of CPython's `textwrap` module that it calls (`textwrap.fill` with
`break_on_hyphens=False`, all other options at their defaults).

Strings are modelled as `List Char`.  Whitespace is modelled as the six
US-ASCII whitespace characters, which is exactly the set `textwrap` hardcodes
(`_whitespace = '\t\n\x0b\x0c\r '`); the inputs in scope are MATLAB source
files, for which Python's `str.lstrip`/`str.rstrip`/`str.isspace` agree with
this ASCII set.  Fallible code (`ValueError` from `textwrap`, `IndexError`
from indexing an empty string, nontermination of `_wrap_chunks` on negative
effective widths, which is modelled by running out of fuel) is returned in an
`Except` value.
-/

namespace MatlabReflow

/-- The six characters of `textwrap._whitespace` (also the ASCII fragment of
Python's `str.isspace`). -/
def pySpace (c : Char) : Bool :=
  c == ' ' || c == '\t' || c == '\n' || c == '\x0b' || c == '\x0c' || c == '\r'

/-- `str.lstrip()` (ASCII whitespace). -/
def pyLstrip (s : List Char) : List Char :=
  s.dropWhile pySpace

/-- `str.rstrip()` (ASCII whitespace). -/
def pyRstrip (s : List Char) : List Char :=
  (s.reverse.dropWhile pySpace).reverse

/-- `str.strip()` (ASCII whitespace). -/
def pyStrip (s : List Char) : List Char :=
  pyLstrip (pyRstrip s)

/-- `_n_leading_spaces(line) = len(line) - len(line.lstrip())`. -/
def nLeadingSpaces (s : List Char) : Nat :=
  s.length - (pyLstrip s).length

/-- `str.replace("%", "", 1)`: remove the first occurrence of a character. -/
def removeFirst (c : Char) : List Char → List Char
  | [] => []
  | d :: ds => if d == c then ds else d :: removeFirst c ds

/-- Characters at which `str.splitlines()` breaks a line, minus the carriage
return handled by the `'\r' :: '\n' :: _` case of `splitlinesAux`. -/
def isLineBreak (c : Char) : Bool :=
  c == '\n' || c == '\x0b' || c == '\x0c' || c == '\r' ||
  c == '\x1c' || c == '\x1d' || c == '\x1e' || c == '\x85' ||
  c == '\u2028' || c == '\u2029'

/-- Worker for `str.splitlines()`: `acc` is the current line, reversed. -/
def splitlinesAux (acc : List Char) : List Char → List (List Char)
  | [] => if acc.isEmpty then [] else [acc.reverse]
  | '\r' :: '\n' :: rest => acc.reverse :: splitlinesAux [] rest
  | c :: rest =>
    if isLineBreak c then acc.reverse :: splitlinesAux [] rest
    else splitlinesAux (c :: acc) rest

/-- `str.splitlines()`. -/
def pySplitlines (s : List Char) : List (List Char) :=
  splitlinesAux [] s

/-- The universal-newline translation performed by `Path.read_text()`:
`"\r\n"` and `"\r"` both become `"\n"`. -/
def translateNewlines : List Char → List Char
  | [] => []
  | '\r' :: '\n' :: rest => '\n' :: translateNewlines rest
  | '\r' :: rest => '\n' :: translateNewlines rest
  | c :: rest => c :: translateNewlines rest

/-- The line list the engine iterates over: `file.read_text().splitlines()`. -/
def readLines (content : List Char) : List (List Char) :=
  pySplitlines (translateNewlines content)

/-- `str.expandtabs(8)`, tracking the current column; newlines reset it. -/
def expandTabsAux (col : Nat) : List Char → List Char
  | [] => []
  | c :: cs =>
    if c == '\t' then
      let pad := 8 - col % 8
      List.replicate pad ' ' ++ expandTabsAux (col + pad) cs
    else if c == '\n' || c == '\r' then
      c :: expandTabsAux 0 cs
    else
      c :: expandTabsAux (col + 1) cs

/-- `TextWrapper._munge_whitespace`: expand tabs, then map every whitespace
character to a space. -/
def mungeWhitespace (text : List Char) : List Char :=
  (expandTabsAux 0 text).map (fun c => if pySpace c then ' ' else c)

theorem length_dropWhile_le {α : Type} (p : α → Bool) (l : List α) :
    (l.dropWhile p).length ≤ l.length := by
  induction l with
  | nil => simp [List.dropWhile]
  | cons a l ih =>
    by_cases h : p a
    · simpa [List.dropWhile, h] using Nat.le_succ_of_le ih
    · simp [List.dropWhile, h]

/-- Worker for `splitRuns`: `cur` is the current run, reversed, and `p`
whether it is a whitespace run. -/
def splitRunsAux (p : Bool) (cur : List Char) : List Char → List (List Char)
  | [] => [cur.reverse]
  | c :: cs =>
    if pySpace c == p then splitRunsAux p (c :: cur) cs
    else cur.reverse :: splitRunsAux (pySpace c) [c] cs

/-- `TextWrapper._split` with `break_on_hyphens=False`
(`wordsep_simple_re`): split into the maximal runs of whitespace and of
non-whitespace characters, in order. -/
def splitRuns : List Char → List (List Char)
  | [] => []
  | c :: cs => splitRunsAux (pySpace c) [c] cs

/-- Errors raised (or divergence entered) by the Python code. -/
inductive PyError where
  | invalidWidth : PyError
  | indexError : PyError
  | noFuel : PyError
deriving DecidableEq, Repr

/-- The greedy inner `while chunks` loop of `_wrap_chunks`: move chunks onto
the current line while they fit.  Returns the remaining chunks, the current
line's chunks, and their total length. -/
def greedyFill (w : Int) : List (List Char) → List (List Char) → Nat →
    List (List Char) × List (List Char) × Nat
  | [], cur, len => ([], cur, len)
  | c :: cs, cur, len =>
    if ((len + c.length : Nat) : Int) ≤ w then
      greedyFill w cs (cur ++ [c]) (len + c.length)
    else (c :: cs, cur, len)

/-- `TextWrapper._handle_long_word` with `break_long_words=True` and
`break_on_hyphens=False`: move as much of the head chunk onto the current
line as fits (at least one character when the width is degenerate).  The
caller's greedy loop guarantees `curLen ≤ w` when `1 ≤ w`, so Python's
`chunk[:space_left]` is a plain `take`. -/
def handleLongWord (w : Int) (curLen : Nat) (chunks curLine : List (List Char)) :
    List (List Char) × List (List Char) :=
  let spaceLeft : Nat := if w < 1 then 1 else (w - (curLen : Int)).toNat
  match chunks with
  | [] => ([], curLine)
  | chunk :: rest => (chunk.drop spaceLeft :: rest, curLine ++ [chunk.take spaceLeft])

/-- The greedy fill of one line followed by the long-word check: the
remaining chunks and the current line's chunks. -/
def fitChunks (w : Int) (chunks1 : List (List Char)) :
    List (List Char) × List (List Char) :=
  let res := greedyFill w chunks1 [] 0
  -- the next chunk is too big to fit on any line
  match res.1 with
  | [] => ([], res.2.1)
  | d :: ds =>
    if w < (d.length : Int) then handleLongWord w res.2.2 (d :: ds) res.2.1
    else (d :: ds, res.2.1)

/-- If the last chunk on this line is all whitespace, drop it. -/
def dropTrailingWs (curLine : List (List Char)) : List (List Char) :=
  match curLine.getLast? with
  | some last => if (pyStrip last).isEmpty then curLine.dropLast else curLine
  | none => curLine

def wrapCore (w : Int) (hasLines : Bool) (chunks : List (List Char)) :
    List (List Char) × List (List Char) :=
  match chunks with
  | [] => ([], [])
  | c :: cs =>
    -- drop a leading whitespace chunk, except at the very start of the text
    let chunks1 := if (pyStrip c).isEmpty && hasLines then cs else c :: cs
    let step2 := fitChunks w chunks1
    (step2.1, dropTrailingWs step2.2)

/-- One iteration of the outer `while chunks` loop of `_wrap_chunks` (with
`max_lines=None`, `drop_whitespace=True`): `w` is the effective width
`self.width - len(indent)` and `hasLines` whether any line was emitted yet.
Returns the remaining chunks and the emitted line, if any.  (`chunks = []`
cannot reach this function from `wrapLoop`.) -/
def wrapStep (w : Int) (indent : List Char) (hasLines : Bool)
    (chunks : List (List Char)) : List (List Char) × Option (List Char) :=
  let core := wrapCore w hasLines chunks
  (core.1, if core.2.isEmpty then none else some (indent ++ core.2.flatten))

/-- Append the emitted line, if any, to the accumulated lines. -/
def appendLine (lines : List (List Char)) : Option (List Char) → List (List Char)
  | none => lines
  | some l => lines ++ [l]

/-- The outer `while chunks` loop of `_wrap_chunks`.  The loop does not
terminate in Python when the effective width goes negative; the fuel models
that as `noFuel`. -/
def wrapLoop (width : Int) (initInd subInd : List Char) :
    Nat → List (List Char) → List (List Char) → Except PyError (List (List Char))
  | 0, _, _ => .error .noFuel
  | _ + 1, [], lines => .ok lines
  | fuel + 1, c :: cs, lines =>
    let indent := if lines.isEmpty then initInd else subInd
    let step := wrapStep (width - indent.length) indent (!lines.isEmpty) (c :: cs)
    wrapLoop width initInd subInd fuel step.1 (appendLine lines step.2)

/-- Fuel sufficient for every terminating run of `_wrap_chunks`: each
Python-terminating iteration strictly decreases
`2 * (total characters) + (number of chunks)`. -/
def wrapFuel (chunks : List (List Char)) : Nat :=
  2 * (chunks.map List.length).sum + chunks.length + 1

/-- `TextWrapper.wrap` (via `_split_chunks` and `_wrap_chunks`), including
the `ValueError` raised when `width <= 0`. -/
def pyWrap (width : Int) (initInd subInd : List Char) (text : List Char) :
    Except PyError (List (List Char)) :=
  if width ≤ 0 then .error .invalidWidth
  else
    let chunks := splitRuns (mungeWhitespace text)
    wrapLoop width initInd subInd (wrapFuel chunks) chunks []

/-- `textwrap.fill`: `"\n".join(wrap(text))`. -/
def pyFill (width : Int) (initInd subInd : List Char) (text : List Char) :
    Except PyError (List Char) :=
  (pyWrap width initInd subInd text).map (fun lines => List.intercalate ['\n'] lines)

/-- The engine's configuration: `line_length`, `ignore_indented`,
`alternate_capital_handling`.  `line_length` is an `Int` because `argparse`
accepts any integer, including non-positive ones. -/
structure Config where
  lineLength : Int
  ignoreIndented : Bool
  alternateCapitalHandling : Bool
deriving DecidableEq, Repr

/-- The mutable state of `process_file`'s loop: the comment buffer, the
indent level, and the text written to the output file so far. -/
structure EngineState where
  buffer : List (List Char)
  indentLevel : Nat
  out : List Char
deriving DecidableEq, Repr

/-- The wrap lines produced by `_dump_buffer` (before joining with
newlines): `textwrap.wrap` of the joined buffer at the given width, with
`initial_indent = ' '*indent_level + '%'` and
`subsequent_indent = ' '*indent_level + '% '`. -/
def dumpLines (lineLength : Int) (buffer : List (List Char)) (indentLevel : Nat) :
    Except PyError (List (List Char)) :=
  pyWrap lineLength
    (List.replicate indentLevel ' ' ++ ['%'])
    (List.replicate indentLevel ' ' ++ ['%', ' '])
    buffer.flatten

/-- The text written by `_dump_buffer`: the filled text followed by a
newline.  (The buffer is cleared by the callers below.) -/
def dumpBuffer (lineLength : Int) (buffer : List (List Char)) (indentLevel : Nat) :
    Except PyError (List Char) :=
  (dumpLines lineLength buffer indentLevel).map
    (fun lines => List.intercalate ['\n'] lines ++ ['\n'])

/-- `_write_line`: dump the buffer if it is non-empty, then write the line
verbatim followed by a newline. -/
def writeLine (cfg : Config) (st : EngineState) (line : List Char) :
    Except PyError EngineState :=
  if st.buffer.isEmpty then
    .ok { st with out := st.out ++ line ++ ['\n'] }
  else
    (dumpBuffer cfg.lineLength st.buffer st.indentLevel).map
      (fun d => { st with buffer := [], out := st.out ++ d ++ line ++ ['\n'] })

/-- The "uncommented" form of a comment line:
`line.lstrip().replace("%", "", 1).rstrip()`. -/
def uncommentOf (line : List Char) : List Char :=
  pyRstrip (removeFirst '%' (pyLstrip line))

/-- `lstripped_line.startswith("%")`. -/
def startsWithPercent (s : List Char) : Bool :=
  match s.head? with
  | some c => c == '%'
  | none => false

/-- The state after the `if not buffer` prologue of the comment branch:
a comment line arriving at an empty buffer records its leading-space count
as the indent level of the incoming block. -/
def recordIndent (st : EngineState) (line : List Char) : EngineState :=
  if st.buffer.isEmpty then { st with indentLevel := nLeadingSpaces line } else st

/-- The capital-letter test `uncommented_line.lstrip()[0].isupper()`,
evaluated only when `alternate_capital_handling` is enabled; indexing an
empty string raises `IndexError`. -/
def capitalCheck (cfg : Config) (uncommented : List Char) : Except PyError Bool :=
  if cfg.alternateCapitalHandling then
    match (pyLstrip uncommented).head? with
    | some c => .ok c.isUpper
    | none => .error PyError.indexError
  else .ok false

/-- One iteration of the `for line in src` loop of `process_file`.
(`uncommentOf line` is definitionally
`pyRstrip (removeFirst '%' (pyLstrip line))`, the code's
`lstripped_line.replace("%", "", 1).rstrip()`.) -/
def processLine (cfg : Config) (st : EngineState) (line : List Char) :
    Except PyError EngineState :=
  if startsWithPercent (pyLstrip line) then
    let st1 := recordIndent st line
    if nLeadingSpaces (uncommentOf line) = 0 then
      writeLine cfg st1 line
    else if cfg.ignoreIndented && decide (2 ≤ nLeadingSpaces (uncommentOf line)) then
      writeLine cfg st1 line
    else do
      let capital ← capitalCheck cfg (uncommentOf line)
      if capital && !st1.buffer.isEmpty then
        (dumpBuffer cfg.lineLength st1.buffer st1.indentLevel).map
          (fun d => { st1 with buffer := [uncommentOf line], out := st1.out ++ d })
      else
        .ok { st1 with buffer := st1.buffer ++ [uncommentOf line] }
  else writeLine cfg st line

/-- Folding `processLine` over a list of source lines. -/
def processLines (cfg : Config) (st : EngineState) :
    List (List Char) → Except PyError EngineState
  | [] => .ok st
  | l :: ls => do
    let st' ← processLine cfg st l
    processLines cfg st' ls

/-- The state at the top of `process_file`'s loop. -/
def initState : EngineState :=
  { buffer := [], indentLevel := 0, out := [] }

/-- `process_file`, as a function from the file's previous content to its
new content: split into lines, run the loop, and dump any remaining buffer
at EOF. -/
def processFile (cfg : Config) (content : List Char) : Except PyError (List Char) := do
  let st ← processLines cfg initState (readLines content)
  if st.buffer.isEmpty then
    pure st.out
  else do
    let d ← dumpBuffer cfg.lineLength st.buffer st.indentLevel
    pure (st.out ++ d)

/-- A source line is reflow-eligible when it is a comment line whose
uncommented form has non-zero inner indentation and is not excluded by
`ignore_indented`: exactly the lines that `process_file` appends to the
buffer (possibly after a capital-letter flush). -/
def reflowEligible (cfg : Config) (line : List Char) : Bool :=
  if startsWithPercent (pyLstrip line) then
    let inner := nLeadingSpaces (uncommentOf line)
    !(inner == 0) && !(cfg.ignoreIndented && decide (2 ≤ inner))
  else false

/-- The text `_dump_buffer` would write for the pending buffer: nothing when
the buffer is empty. -/
def flushedOutput (cfg : Config) (st : EngineState) : Except PyError (List Char) :=
  if st.buffer.isEmpty then .ok []
  else dumpBuffer cfg.lineLength st.buffer st.indentLevel

/-- The indent level after the classification prologue of `processLine`:
a comment line arriving at an empty buffer records its leading-space
count; every other line leaves the level unchanged. -/
def updatedIndent (st : EngineState) (line : List Char) : Nat :=
  if startsWithPercent (pyLstrip line) then
    if st.buffer.isEmpty then nLeadingSpaces line else st.indentLevel
  else st.indentLevel

/-- A line the engine passes through verbatim: a non-comment line, a blank
comment line (zero inner indentation), or an inner-indented comment line
when `ignore_indented` is enabled. -/
def passThrough (cfg : Config) (line : List Char) : Bool :=
  if startsWithPercent (pyLstrip line) then
    let inner := nLeadingSpaces (uncommentOf line)
    (inner == 0) || (cfg.ignoreIndented && decide (2 ≤ inner))
  else true

/-- Shorthand for building concrete inputs. -/
def lchars (s : String) : List Char :=
  s.toList

instance {ε α : Type} [DecidableEq ε] [DecidableEq α] : DecidableEq (Except ε α) := fun a b =>
  match a, b with
  | .ok x, .ok y =>
    if h : x = y then isTrue (by rw [h])
    else isFalse (fun hh => h (Except.ok.inj hh))
  | .ok _, .error _ => isFalse (fun hh => Except.noConfusion hh)
  | .error _, .ok _ => isFalse (fun hh => Except.noConfusion hh)
  | .error x, .error y =>
    if h : x = y then isTrue (by rw [h])
    else isFalse (fun hh => h (Except.error.inj hh))

/-- Claim C1 counterexample: with `line_length = 7`, the input
`"% aa  bb\n"` reflows to `"% aa\n% bb\n"`, and running the engine again on
that output yields `"% aa bb\n"`, which differs: the two-space separator was
dropped at the line break, so the second run packs both words onto one
line.  Reflowing already-reflowed text does change it further. -/
theorem c1_counterexample :
    processFile ⟨7, true, false⟩ (lchars "% aa  bb\n") = .ok (lchars "% aa\n% bb\n") ∧
    processFile ⟨7, true, false⟩ (lchars "% aa\n% bb\n") = .ok (lchars "% aa bb\n") ∧
    lchars "% aa\n% bb\n" ≠ lchars "% aa bb\n" := by
  refine ⟨?_, ?_, ?_⟩ <;> decide

/-- Claim C2 counterexample: with `alternate_capital_handling` enabled, the
buffer started by the capital-letter line `"  % Bbb"` (two leading spaces)
inherits the previous buffer's indent level 0 instead of being reset: its
wrapped output line is `"% Bbb"`, which does not start with the two spaces
of the buffer's first source line. -/
theorem c2_counterexample :
    processFile ⟨78, true, true⟩ (lchars "% aaa\n  % Bbb\n") =
      .ok (lchars "% aaa\n% Bbb\n") ∧
    readLines (lchars "% aaa\n  % Bbb\n") = [lchars "% aaa", lchars "  % Bbb"] ∧
    nLeadingSpaces (lchars "  % Bbb") = 2 ∧
    pySplitlines (lchars "% aaa\n% Bbb\n") = [lchars "% aaa", lchars "% Bbb"] ∧
    (lchars "% Bbb").take 2 ≠ lchars "  " := by
  refine ⟨?_, ?_, ?_, ?_, ?_⟩ <;> decide

/-- Claim C3 counterexample: after processing the consecutive comment lines
`"% aaa"` (0 leading spaces) and `"  % bbb"` (2 leading spaces), the buffer
holds both uncommented fragments even though their source lines have
different leading-space counts, so the fragments of one buffer do not all
share one indent level. -/
theorem c3_counterexample :
    processLines ⟨78, true, false⟩ initState [lchars "% aaa", lchars "  % bbb"] =
      .ok { buffer := [lchars " aaa", lchars " bbb"], indentLevel := 0, out := [] } ∧
    nLeadingSpaces (lchars "% aaa") = 0 ∧
    nLeadingSpaces (lchars "  % bbb") = 2 ∧
    (0 : Nat) ≠ 2 := by
  refine ⟨?_, ?_, ?_, ?_⟩ <;> decide

/-- Claim C4 counterexample: with `line_length = 3` the input `"  % ab\n"`
produces the output lines `"  %a"` and `"  % b"` of lengths 4 and 5, both
exceeding `line_length`, although every whitespace-separated chunk of the
comment text (`" ab"`) has length at most 2. -/
theorem c4_counterexample :
    processFile ⟨3, true, false⟩ (lchars "  % ab\n") = .ok (lchars "  %a\n  % b\n") ∧
    pySplitlines (lchars "  %a\n  % b\n") = [lchars "  %a", lchars "  % b"] ∧
    (lchars "  %a").length = 4 ∧
    (lchars "  % b").length = 5 ∧
    ¬((4 : Int) ≤ 3) ∧ ¬((5 : Int) ≤ 3) ∧
    (∀ chunk ∈ splitRuns (mungeWhitespace (lchars " ab")), (chunk.length : Int) ≤ 3) := by
  refine ⟨?_, ?_, ?_, ?_, ?_, ?_, ?_⟩ <;> decide

theorem writeLine_eq (cfg : Config) (st : EngineState) (line : List Char) :
    writeLine cfg st line = (flushedOutput cfg st).map
      (fun d => { buffer := [], indentLevel := st.indentLevel,
                  out := st.out ++ d ++ line ++ ['\n'] }) := by
  unfold writeLine flushedOutput
  by_cases h : st.buffer.isEmpty
  · cases st with
    | mk b i o => simp_all [List.isEmpty_iff, Except.map]
  · simp [h]

theorem recordIndent_buffer (st : EngineState) (line : List Char) :
    (recordIndent st line).buffer = st.buffer := by
  unfold recordIndent
  split <;> rfl

theorem recordIndent_out (st : EngineState) (line : List Char) :
    (recordIndent st line).out = st.out := by
  unfold recordIndent
  split <;> rfl

theorem flushedOutput_recordIndent (cfg : Config) (st : EngineState) (line : List Char) :
    flushedOutput cfg (recordIndent st line) = flushedOutput cfg st := by
  unfold recordIndent flushedOutput
  by_cases h : st.buffer.isEmpty <;> simp [h]

theorem processLine_passthrough (cfg : Config) (st : EngineState) (line : List Char)
    (h : passThrough cfg line = true) :
    processLine cfg st line = (flushedOutput cfg st).map
      (fun d => { buffer := [], indentLevel := updatedIndent st line,
                  out := st.out ++ d ++ line ++ ['\n'] }) := by
  unfold processLine updatedIndent
  by_cases hp : startsWithPercent (pyLstrip line) = true
  · simp only [hp, if_true]
    have h' : (nLeadingSpaces (uncommentOf line) == 0 ||
        cfg.ignoreIndented && decide (2 ≤ nLeadingSpaces (uncommentOf line))) = true := by
      simpa [passThrough, hp] using h
    have hrec : (recordIndent st line).indentLevel =
        (if st.buffer.isEmpty then nLeadingSpaces line else st.indentLevel) := by
      unfold recordIndent
      by_cases hb : st.buffer.isEmpty <;> simp [hb]
    by_cases h0 : nLeadingSpaces (uncommentOf line) = 0
    · rw [if_pos h0, writeLine_eq, flushedOutput_recordIndent, hrec,
        recordIndent_out]
    · have h2 : (cfg.ignoreIndented && decide (2 ≤ nLeadingSpaces (uncommentOf line))) = true := by
        rcases Bool.or_eq_true_iff.mp h' with ha | hb2
        · exact absurd (eq_of_beq ha) h0
        · exact hb2
      rw [if_neg h0, if_pos h2, writeLine_eq, flushedOutput_recordIndent, hrec,
        recordIndent_out]
  · simp only [hp, Bool.false_eq_true, if_false]
    exact writeLine_eq cfg st line

/-- Claim C5: a comment line whose uncommented form has zero leading spaces
(the code's "blank line" test) flushes any pending buffer and is then
emitted verbatim followed by a newline; it is never appended to the buffer
(the resulting buffer is empty). -/
theorem c5_blank_comment_passthrough (cfg : Config) (st : EngineState) (line : List Char)
    (h1 : startsWithPercent (pyLstrip line) = true)
    (h2 : nLeadingSpaces (uncommentOf line) = 0) :
    processLine cfg st line = (flushedOutput cfg st).map
      (fun d => { buffer := [], indentLevel := updatedIndent st line,
                  out := st.out ++ d ++ line ++ ['\n'] }) := by
  apply processLine_passthrough
  simp [passThrough, h1, h2]

/-- Claim C5 witness: the spec's example, the blank comment line `"%"`
arriving while `"% Next para"` text is pending, is written out verbatim
after the flush and leaves the buffer empty. -/
theorem c5_blank_comment_passthrough_witness :
    startsWithPercent (pyLstrip (lchars "%")) = true ∧
    nLeadingSpaces (uncommentOf (lchars "%")) = 0 ∧
    processLine ⟨78, true, false⟩ ⟨[lchars " pending"], 0, []⟩ (lchars "%") =
      (flushedOutput ⟨78, true, false⟩ ⟨[lchars " pending"], 0, []⟩).map
        (fun d => { buffer := [], indentLevel := updatedIndent ⟨[lchars " pending"], 0, []⟩ (lchars "%"),
                    out := ([] : List Char) ++ d ++ lchars "%" ++ ['\n'] }) :=
  ⟨by decide, by decide,
    c5_blank_comment_passthrough ⟨78, true, false⟩ ⟨[lchars " pending"], 0, []⟩ (lchars "%")
      (by decide) (by decide)⟩

/-- Claim C6: every line classified as pass-through (blank comment line,
inner-indented comment line when `ignore_indented` is enabled, or
non-comment line) is appended to the output byte-identically, including its
original leading whitespace, terminated by a newline (after any pending
buffer is flushed first). -/
theorem c6_passthrough_exact (cfg : Config) (st : EngineState) (line : List Char)
    (h : passThrough cfg line = true) :
    processLine cfg st line = (flushedOutput cfg st).map
      (fun d => { buffer := [], indentLevel := updatedIndent st line,
                  out := st.out ++ d ++ line ++ ['\n'] }) :=
  processLine_passthrough cfg st line h

/-- Claim C6 witness: the indented comment line `"%   code example here"`
with `ignore_indented` enabled passes through byte-identically. -/
theorem c6_passthrough_exact_witness :
    passThrough ⟨78, true, false⟩ (lchars "  %   code example here") = true ∧
    processLine ⟨78, true, false⟩ initState (lchars "  %   code example here") =
      (flushedOutput ⟨78, true, false⟩ initState).map
        (fun d => { buffer := [], indentLevel := updatedIndent initState (lchars "  %   code example here"),
                    out := ([] : List Char) ++ d ++ lchars "  %   code example here" ++ ['\n'] }) :=
  ⟨by decide,
    c6_passthrough_exact ⟨78, true, false⟩ initState (lchars "  %   code example here") (by decide)⟩

theorem exceptBind_ok {ε α β : Type} (a : α) (f : α → Except ε β) :
    (Except.ok (ε := ε) a >>= f) = f a := rfl

theorem exceptBind_err {ε α β : Type} (e : ε) (f : α → Except ε β) :
    ((Except.error e : Except ε α) >>= f) = Except.error e := rfl

theorem wrapLoop_error_eq (width : Int) (initInd subInd : List Char) (fuel : Nat)
    (chunks lines : List (List Char)) (e : PyError)
    (h : wrapLoop width initInd subInd fuel chunks lines = .error e) : e = .noFuel := by
  induction fuel generalizing chunks lines with
  | zero =>
    unfold wrapLoop at h
    exact (Except.error.inj h).symm
  | succ fuel ih =>
    match chunks with
    | [] =>
      unfold wrapLoop at h
      exact absurd h (by simp)
    | c :: cs =>
      unfold wrapLoop at h
      exact ih _ _ h

theorem dumpBuffer_error_eq (L : Int) (buf : List (List Char)) (N : Nat) (e : PyError)
    (h : dumpBuffer L buf N = .error e) : e = .invalidWidth ∨ e = .noFuel := by
  unfold dumpBuffer dumpLines pyWrap at h
  by_cases hw : L ≤ 0
  · rw [if_pos hw] at h
    simp only [Except.map] at h
    exact Or.inl (Except.error.inj h).symm
  · rw [if_neg hw] at h
    rcases hl : wrapLoop L (List.replicate N ' ' ++ ['%']) (List.replicate N ' ' ++ ['%', ' '])
        (wrapFuel (splitRuns (mungeWhitespace buf.flatten)))
        (splitRuns (mungeWhitespace buf.flatten)) [] with e' | ls
    · rw [hl] at h
      simp only [Except.map] at h
      have he : e = e' := (Except.error.inj h).symm
      exact Or.inr (he ▸ wrapLoop_error_eq _ _ _ _ _ _ _ hl)
    · rw [hl] at h
      simp [Except.map] at h

theorem dumpBuffer_ne_indexError (L : Int) (buf : List (List Char)) (N : Nat) :
    dumpBuffer L buf N ≠ .error .indexError := by
  intro h
  rcases dumpBuffer_error_eq L buf N _ h with h' | h' <;> exact PyError.noConfusion h'

theorem writeLine_ne_indexError (cfg : Config) (st : EngineState) (line : List Char) :
    writeLine cfg st line ≠ .error .indexError := by
  unfold writeLine
  by_cases h : st.buffer.isEmpty
  · simp [h]
  · rw [if_neg h]
    rcases hd : dumpBuffer cfg.lineLength st.buffer st.indentLevel with e | d
    · simp only [Except.map]
      intro hh
      exact dumpBuffer_ne_indexError cfg.lineLength st.buffer st.indentLevel
        (hd.trans (congrArg Except.error (Except.error.inj hh)))
    · simp [Except.map]

theorem pyLstrip_eq_nil_iff (u : List Char) : pyLstrip u = [] ↔ ∀ c ∈ u, pySpace c := by
  unfold pyLstrip
  exact List.dropWhile_eq_nil_iff

/-- The uncommented form of a line is rstripped, so when its inner
indentation is non-zero it contains a non-whitespace character and its
lstrip is non-empty: the capital-letter indexing is in range. -/
theorem uncommentOf_lstrip_ne_nil (line : List Char)
    (h : nLeadingSpaces (uncommentOf line) ≠ 0) :
    pyLstrip (uncommentOf line) ≠ [] := by
  intro hnil
  have hall : ∀ c ∈ uncommentOf line, pySpace c := (pyLstrip_eq_nil_iff _).mp hnil
  have hne : uncommentOf line ≠ [] := by
    intro hn
    exact h (by simp [hn, nLeadingSpaces, pyLstrip, List.dropWhile])
  -- the last character of `pyRstrip s` is never whitespace
  unfold uncommentOf pyRstrip at hne hall
  rcases hd : (removeFirst '%' (pyLstrip line)).reverse.dropWhile pySpace with _ | ⟨x, xs⟩
  · rw [hd] at hne
    simp at hne
  · have hx : ¬ pySpace x := by
      have := List.head_dropWhile_not pySpace (removeFirst '%' (pyLstrip line)).reverse
        (by rw [hd]; exact List.cons_ne_nil x xs)
      simpa [hd] using this
    exact hx (hall x (by rw [hd]; simp))

theorem capitalCheck_ok (cfg : Config) (u : List Char) (h : pyLstrip u ≠ []) :
    ∃ b : Bool, capitalCheck cfg u = .ok b := by
  unfold capitalCheck
  rcases hu : (pyLstrip u).head? with _ | c
  · exact absurd (List.head?_eq_none_iff.mp hu) h
  · by_cases ha : cfg.alternateCapitalHandling
    · exact ⟨c.isUpper, by simp [ha, hu]⟩
    · exact ⟨false, by simp [ha]⟩

/-- Claim C8: a comment line consisting of exactly `%` is handled by the
zero-inner-indent check: it is passed through verbatim and never buffered;
and the capital-letter check never indexes out of range — `processLine`
never raises the modelled `IndexError`, on any line and state. -/
theorem c8_percent_only_safe (cfg : Config) (st : EngineState) (line : List Char)
    (hline : pyLstrip line = ['%']) :
    processLine cfg st line = (flushedOutput cfg st).map
      (fun d => { buffer := [], indentLevel := updatedIndent st line,
                  out := st.out ++ d ++ line ++ ['\n'] }) ∧
    (∀ (cfg' : Config) (st' : EngineState) (line' : List Char),
      processLine cfg' st' line' ≠ .error .indexError) := by
  constructor
  · apply processLine_passthrough
    have hu : uncommentOf line = [] := by
      unfold uncommentOf
      rw [hline]
      decide
    simp [passThrough, hline, hu, startsWithPercent, nLeadingSpaces, pyLstrip, List.dropWhile]
  · intro cfg' st' line'
    unfold processLine
    by_cases hp : startsWithPercent (pyLstrip line') = true
    · simp only [hp, if_true]
      by_cases h0 : nLeadingSpaces (uncommentOf line') = 0
      · rw [if_pos h0]
        exact writeLine_ne_indexError _ _ _
      · rw [if_neg h0]
        by_cases h2 : (cfg'.ignoreIndented && decide (2 ≤ nLeadingSpaces (uncommentOf line'))) = true
        · rw [if_pos h2]
          exact writeLine_ne_indexError _ _ _
        · rw [if_neg h2]
          obtain ⟨b, hb⟩ := capitalCheck_ok cfg' (uncommentOf line')
            (uncommentOf_lstrip_ne_nil line' h0)
          rw [hb, exceptBind_ok]
          by_cases hc : (b && !(recordIndent st' line').buffer.isEmpty) = true
          · rw [if_pos hc]
            rcases hd : dumpBuffer cfg'.lineLength (recordIndent st' line').buffer
                (recordIndent st' line').indentLevel with e | d
            · simp only [Except.map]
              intro hh
              exact dumpBuffer_ne_indexError _ _ _
                (hd.trans (congrArg Except.error (Except.error.inj hh)))
            · simp [Except.map]
          · rw [if_neg hc]
            simp
    · simp only [hp, Bool.false_eq_true, if_false]
      exact writeLine_ne_indexError _ _ _

/-- Claim C8 witness: the line `"%"` in a state with pending text. -/
theorem c8_percent_only_safe_witness :
    pyLstrip (lchars "%") = ['%'] ∧
    (processLine ⟨78, true, true⟩ ⟨[lchars " pending"], 0, []⟩ (lchars "%") =
      (flushedOutput ⟨78, true, true⟩ ⟨[lchars " pending"], 0, []⟩).map
        (fun d => { buffer := [], indentLevel := updatedIndent ⟨[lchars " pending"], 0, []⟩ (lchars "%"),
                    out := ([] : List Char) ++ d ++ lchars "%" ++ ['\n'] }) ∧
      (∀ (cfg' : Config) (st' : EngineState) (line' : List Char),
        processLine cfg' st' line' ≠ .error .indexError)) :=
  ⟨by decide,
    c8_percent_only_safe ⟨78, true, true⟩ ⟨[lchars " pending"], 0, []⟩ (lchars "%") (by decide)⟩

theorem wrapStep_fst (w : Int) (indent : List Char) (hasLines : Bool)
    (chunks : List (List Char)) :
    (wrapStep w indent hasLines chunks).1 = (wrapCore w hasLines chunks).1 := rfl

theorem wrapStep_snd (w : Int) (indent : List Char) (hasLines : Bool)
    (chunks : List (List Char)) :
    (wrapStep w indent hasLines chunks).2 =
      (if (wrapCore w hasLines chunks).2.isEmpty then none
       else some (indent ++ (wrapCore w hasLines chunks).2.flatten)) := rfl

theorem appendLine_none (lines : List (List Char)) : appendLine lines none = lines := rfl

theorem appendLine_some (lines : List (List Char)) (l : List Char) :
    appendLine lines (some l) = lines ++ [l] := rfl

theorem wrapStep_emit_shape (w : Int) (indent : List Char) (hasLines : Bool)
    (chunks : List (List Char)) (rest : List (List Char)) (l : List Char)
    (h : wrapStep w indent hasLines chunks = (rest, some l)) :
    ∃ t, l = indent ++ t := by
  unfold wrapStep at h
  simp only [Prod.mk.injEq] at h
  obtain ⟨-, h2⟩ := h
  split at h2
  · exact absurd h2 (by simp)
  · exact ⟨_, (Option.some.inj h2).symm⟩

theorem wrapLoop_lines_pre (width : Int) (initInd subInd : List Char)
    (P : List Char → Prop)
    (hinit : ∀ t, P (initInd ++ t)) (hsub : ∀ t, P (subInd ++ t)) :
    ∀ (fuel : Nat) (chunks lines out : List (List Char)),
      (∀ l ∈ lines, P l) →
      wrapLoop width initInd subInd fuel chunks lines = .ok out →
      ∀ l ∈ out, P l := by
  intro fuel
  induction fuel with
  | zero =>
    intro chunks lines out _ h
    unfold wrapLoop at h
    exact absurd h (by simp)
  | succ fuel ih =>
    intro chunks lines out hl h
    match chunks with
    | [] =>
      unfold wrapLoop at h
      exact (Except.ok.inj h) ▸ hl
    | c :: cs =>
      unfold wrapLoop at h
      refine ih _ _ _ ?_ h
      intro l hmem
      rcases hstep : (wrapStep
          (width - (if lines.isEmpty then initInd else subInd).length)
          (if lines.isEmpty then initInd else subInd) (!lines.isEmpty) (c :: cs)) with ⟨rest, o⟩
      rw [hstep] at hmem
      match o, hmem with
      | none, hmem => exact hl l hmem
      | some l', hmem =>
        rcases List.mem_append.mp hmem with hm | hm
        · exact hl l hm
        · obtain ⟨t, ht⟩ := wrapStep_emit_shape _ _ _ _ _ _ hstep
          have hl' := List.mem_singleton.mp hm
          subst hl'
          subst ht
          by_cases hemp : lines.isEmpty
          · rw [if_pos hemp]
            exact hinit t
          · rw [if_neg hemp]
            exact hsub t

theorem take_replicate_percent (N : Nat) (u : List Char) :
    (List.replicate N ' ' ++ ('%' :: u)).take (N + 1) = List.replicate N ' ' ++ ['%'] := by
  rw [List.take_append_eq_append_take]
  have h1 : (List.replicate N ' ').take (N + 1) = List.replicate N ' ' :=
    List.take_of_length_le (by simp)
  have h2 : N + 1 - (List.replicate N ' ').length = 1 := by simp
  rw [h1, h2]
  simp

/-- Claim C2 (amended): every wrapped output line produced by a buffer
flush at recorded indent level `N` starts with exactly `N` spaces followed
by `%`.  (`N` is the engine's recorded level: it is set from a comment
line's leading-space count only when that line arrives while the buffer is
empty, so a buffer begun by a capital-letter flush inherits the previous
buffer's level rather than resetting to its own line's.) -/
theorem c2_flush_indent (L : Int) (buf : List (List Char)) (N : Nat)
    (ls : List (List Char)) (h : dumpLines L buf N = .ok ls) :
    ∀ l ∈ ls, l.take (N + 1) = List.replicate N ' ' ++ ['%'] := by
  unfold dumpLines pyWrap at h
  by_cases hw : L ≤ 0
  · rw [if_pos hw] at h
    exact absurd h (by simp)
  · rw [if_neg hw] at h
    refine wrapLoop_lines_pre L (List.replicate N ' ' ++ ['%'])
      (List.replicate N ' ' ++ ['%', ' '])
      (fun l => l.take (N + 1) = List.replicate N ' ' ++ ['%']) ?_ ?_ _ _ _ _ (by simp) h
    · intro t
      rw [List.append_assoc, List.singleton_append]
      exact take_replicate_percent N t
    · intro t
      rw [List.append_assoc, List.cons_append, List.singleton_append]
      exact take_replicate_percent N (' ' :: t)

/-- Claim C2 (amended) witness: a two-line flush at indent level 2. -/
theorem c2_flush_indent_witness :
    dumpLines 10 [lchars " abc def"] 2 = .ok [lchars "  % abc", lchars "  % def"] ∧
    (∀ l ∈ [lchars "  % abc", lchars "  % def"],
      l.take (2 + 1) = List.replicate 2 ' ' ++ ['%']) :=
  ⟨by decide, c2_flush_indent 10 [lchars " abc def"] 2 _ (by decide)⟩

theorem greedyFill_len_inv (w : Int) : ∀ (cs cur : List (List Char)) (len : Nat),
    len = cur.flatten.length →
    (greedyFill w cs cur len).2.2 = (greedyFill w cs cur len).2.1.flatten.length := by
  intro cs
  induction cs with
  | nil =>
    intro cur len h
    simpa [greedyFill] using h
  | cons c cs ih =>
    intro cur len h
    unfold greedyFill
    by_cases hc : ((len + c.length : Nat) : Int) ≤ w
    · rw [if_pos hc]
      exact ih (cur ++ [c]) (len + c.length) (by simp [h])
    · rw [if_neg hc]
      exact h

theorem greedyFill_len_le (w : Int) : ∀ (cs cur : List (List Char)) (len : Nat),
    (len : Int) ≤ w → ((greedyFill w cs cur len).2.2 : Int) ≤ w := by
  intro cs
  induction cs with
  | nil =>
    intro cur len h
    simpa [greedyFill] using h
  | cons c cs ih =>
    intro cur len h
    unfold greedyFill
    by_cases hc : ((len + c.length : Nat) : Int) ≤ w
    · rw [if_pos hc]
      exact ih (cur ++ [c]) (len + c.length) hc
    · rw [if_neg hc]
      exact h

theorem flatten_dropLast_length_le (l : List (List Char)) :
    l.dropLast.flatten.length ≤ l.flatten.length := by
  rcases hl : l.getLast? with _ | last
  · rw [List.getLast?_eq_none_iff.mp hl]
    simp
  · have hne : l ≠ [] := by
      intro h
      rw [h] at hl
      simp at hl
    conv_rhs => rw [← List.dropLast_append_getLast hne]
    simp

/-- Content chunks on a line never exceed the effective width `w` when
`1 ≤ w`: the greedy loop keeps the running length at most `w`, and the
long-word handler adds exactly the space left. -/
theorem handleLongWord_cons (w : Int) (n : Nat) (d : List Char) (ds cur : List (List Char)) :
    handleLongWord w n (d :: ds) cur =
      (d.drop (if w < 1 then 1 else (w - (n : Int)).toNat) :: ds,
       cur ++ [d.take (if w < 1 then 1 else (w - (n : Int)).toNat)]) := rfl

theorem fitChunks_le (w : Int) (chunks1 : List (List Char)) (hw : 1 ≤ w) :
    ((fitChunks w chunks1).2.flatten.length : Int) ≤ w := by
  simp only [fitChunks]
  have h0w : (0 : Int) ≤ w := by omega
  have hlen := greedyFill_len_inv w chunks1 [] 0 (by simp)
  have hle := greedyFill_len_le w chunks1 [] 0 (by simpa using h0w)
  split
  · show (((greedyFill w chunks1 [] 0).2.1.flatten.length : Nat) : Int) ≤ w
    rw [← hlen]
    exact hle
  · next d ds hrest =>
    show (((if w < (d.length : Int) then
        handleLongWord w (greedyFill w chunks1 [] 0).2.2 (d :: ds)
          (greedyFill w chunks1 [] 0).2.1
      else (d :: ds, (greedyFill w chunks1 [] 0).2.1)).2.flatten.length : Nat) : Int) ≤ w
    by_cases hd : w < (d.length : Int)
    · rw [if_pos hd, handleLongWord_cons, if_neg (by omega)]
      simp only [List.flatten_append, List.flatten_cons, List.flatten_nil,
        List.append_nil, List.length_append]
      have htake : ((d.take (w - ((greedyFill w chunks1 [] 0).2.2 : Int)).toNat).length : Int) ≤
          ((w - ((greedyFill w chunks1 [] 0).2.2 : Int)).toNat : Int) := by
        exact_mod_cast List.length_take_le _ _
      have htoNat : ((w - ((greedyFill w chunks1 [] 0).2.2 : Int)).toNat : Int) =
          w - ((greedyFill w chunks1 [] 0).2.2 : Int) :=
        Int.toNat_of_nonneg (by omega)
      push_cast
      rw [← hlen]
      omega
    · rw [if_neg hd]
      rw [← hlen]
      exact hle

theorem dropTrailingWs_length_le (curLine : List (List Char)) :
    (dropTrailingWs curLine).flatten.length ≤ curLine.flatten.length := by
  unfold dropTrailingWs
  split
  · split
    · exact flatten_dropLast_length_le curLine
    · exact le_refl _
  · exact le_refl _

theorem wrapCore_line_le (w : Int) (hasLines : Bool) (chunks : List (List Char))
    (hw : 1 ≤ w) : ((wrapCore w hasLines chunks).2.flatten.length : Int) ≤ w := by
  unfold wrapCore
  match chunks with
  | [] =>
    simp only [List.flatten_nil, List.length_nil]
    omega
  | c :: cs =>
    simp only
    calc (((dropTrailingWs (fitChunks w (if (pyStrip c).isEmpty && hasLines then cs else c :: cs)).2).flatten.length : Nat) : Int)
        ≤ ((fitChunks w (if (pyStrip c).isEmpty && hasLines then cs else c :: cs)).2.flatten.length : Int) := by
          exact_mod_cast dropTrailingWs_length_le _
      _ ≤ w := fitChunks_le w _ hw

theorem wrapStep_emit_length (w : Int) (indent : List Char) (hasLines : Bool)
    (chunks rest : List (List Char)) (l : List Char) (hw : 1 ≤ w)
    (h : wrapStep w indent hasLines chunks = (rest, some l)) :
    (l.length : Int) ≤ w + indent.length := by
  unfold wrapStep at h
  simp only [Prod.mk.injEq] at h
  obtain ⟨-, h2⟩ := h
  split at h2
  · exact absurd h2 (by simp)
  · have hl := (Option.some.inj h2).symm
    subst hl
    have := wrapCore_line_le w hasLines chunks hw
    simp only [List.length_append]
    push_cast
    omega

theorem wrapLoop_lines_le (width : Int) (initInd subInd : List Char)
    (hi : (initInd.length : Int) + 1 ≤ width) (hs : (subInd.length : Int) + 1 ≤ width) :
    ∀ (fuel : Nat) (chunks lines out : List (List Char)),
      (∀ l ∈ lines, (l.length : Int) ≤ width) →
      wrapLoop width initInd subInd fuel chunks lines = .ok out →
      ∀ l ∈ out, (l.length : Int) ≤ width := by
  intro fuel
  induction fuel with
  | zero =>
    intro chunks lines out _ h
    unfold wrapLoop at h
    exact absurd h (by simp)
  | succ fuel ih =>
    intro chunks lines out hl h
    match chunks with
    | [] =>
      unfold wrapLoop at h
      exact (Except.ok.inj h) ▸ hl
    | c :: cs =>
      unfold wrapLoop at h
      refine ih _ _ _ ?_ h
      intro l hmem
      rcases hstep : (wrapStep
          (width - (if lines.isEmpty then initInd else subInd).length)
          (if lines.isEmpty then initInd else subInd) (!lines.isEmpty) (c :: cs)) with ⟨rest, o⟩
      rw [hstep] at hmem
      match o, hmem with
      | none, hmem => exact hl l hmem
      | some l', hmem =>
        rcases List.mem_append.mp hmem with hm | hm
        · exact hl l hm
        · have hl' := List.mem_singleton.mp hm
          subst hl'
          have hw : 1 ≤ width - ((if lines.isEmpty then initInd else subInd).length : Int) := by
            cases hemp : lines.isEmpty <;> simp only [hemp, if_true, if_false,
              Bool.false_eq_true] <;> omega
          have := wrapStep_emit_length _ _ _ _ _ _ hw hstep
          omega

/-- Claim C4 (amended): no wrapped output line of a buffer flush exceeds
`line_length` columns provided `line_length ≥ indent_level + 3` (so at
least one character of content fits on every line, the subsequent indent
being `indent_level + 2` characters wide).  There is no long-word
exception: words longer than the remaining width are broken, not
overflowed.  (Without that proviso the bound fails, with or without long
words — see the counterexample.) -/
theorem c4_width_bound (L : Int) (buf : List (List Char)) (N : Nat)
    (ls : List (List Char)) (hL : (N : Int) + 3 ≤ L) (h : dumpLines L buf N = .ok ls) :
    ∀ l ∈ ls, (l.length : Int) ≤ L := by
  unfold dumpLines pyWrap at h
  rw [if_neg (by omega)] at h
  refine wrapLoop_lines_le L (List.replicate N ' ' ++ ['%'])
    (List.replicate N ' ' ++ ['%', ' ']) ?_ ?_ _ _ _ _ (by simp) h
  · have hlen : (List.replicate N ' ' ++ ['%']).length = N + 1 := by simp
    rw [hlen]
    push_cast
    omega
  · have hlen : (List.replicate N ' ' ++ ['%', ' ']).length = N + 2 := by simp
    rw [hlen]
    push_cast
    omega

/-- Claim C4 (amended) witness: at indent level 0 and width 5 every output
line fits. -/
theorem c4_width_bound_witness :
    ((0 : Int) + 3 ≤ 5) ∧
    dumpLines 5 [lchars " abc def"] 0 = .ok [lchars "% abc", lchars "% def"] ∧
    (∀ l ∈ [lchars "% abc", lchars "% def"], (l.length : Int) ≤ 5) :=
  ⟨by decide, by decide, c4_width_bound 5 [lchars " abc def"] 0 _ (by decide) (by decide)⟩

/-- The characters the content-preservation property tracks: neither
whitespace nor the comment marker `%`. -/
def contentChar (c : Char) : Bool :=
  !(pySpace c) && !(c == '%')

/-- The non-whitespace, non-`%` characters of a string, in order. -/
def contentF (s : List Char) : List Char :=
  s.filter contentChar

theorem contentF_append (a b : List Char) :
    contentF (a ++ b) = contentF a ++ contentF b :=
  List.filter_append a b

theorem contentF_nil_of_space (s : List Char) (h : ∀ c ∈ s, pySpace c) :
    contentF s = [] := by
  unfold contentF
  rw [List.filter_eq_nil_iff]
  intro c hc
  simp [contentChar, h c hc]

theorem mem_space_of_pyStrip_nil (s : List Char) (h : (pyStrip s).isEmpty = true) :
    ∀ c ∈ s, pySpace c := by
  intro c hc
  have hsplit : s.reverse = s.reverse.takeWhile pySpace ++ s.reverse.dropWhile pySpace :=
    (List.takeWhile_append_dropWhile (p := pySpace) (l := s.reverse)).symm
  have hc' : c ∈ s.reverse := List.mem_reverse.mpr hc
  rw [hsplit] at hc'
  rcases List.mem_append.mp hc' with hm | hm
  · exact List.mem_takeWhile_imp hm
  · -- c is in `pyRstrip s` (reversed), all of whose characters are whitespace
    have hr : ∀ x ∈ pyRstrip s, pySpace x := by
      intro x hx
      have : pyLstrip (pyRstrip s) = [] := by
        simpa [pyStrip, List.isEmpty_iff] using h
      exact (pyLstrip_eq_nil_iff (pyRstrip s)).mp this x hx
    exact hr c (by simpa [pyRstrip, List.mem_reverse] using hm)

theorem greedyFill_flatten (w : Int) : ∀ (cs cur : List (List Char)) (len : Nat),
    (greedyFill w cs cur len).2.1.flatten ++ (greedyFill w cs cur len).1.flatten =
      cur.flatten ++ cs.flatten := by
  intro cs
  induction cs with
  | nil =>
    intro cur len
    simp [greedyFill]
  | cons c cs ih =>
    intro cur len
    unfold greedyFill
    by_cases hc : ((len + c.length : Nat) : Int) ≤ w
    · rw [if_pos hc]
      rw [ih (cur ++ [c]) (len + c.length)]
      simp
    · rw [if_neg hc]

theorem fitChunks_flatten (w : Int) (chunks1 : List (List Char)) :
    (fitChunks w chunks1).2.flatten ++ (fitChunks w chunks1).1.flatten =
      chunks1.flatten := by
  simp only [fitChunks]
  have hg := greedyFill_flatten w chunks1 [] 0
  split
  · next hrest =>
    show (greedyFill w chunks1 [] 0).2.1.flatten ++ List.flatten [] = chunks1.flatten
    rw [hrest] at hg
    simpa using hg
  · next d ds hrest =>
    show ((if w < (d.length : Int) then
        handleLongWord w (greedyFill w chunks1 [] 0).2.2 (d :: ds)
          (greedyFill w chunks1 [] 0).2.1
      else (d :: ds, (greedyFill w chunks1 [] 0).2.1)).2.flatten ++
      (if w < (d.length : Int) then
        handleLongWord w (greedyFill w chunks1 [] 0).2.2 (d :: ds)
          (greedyFill w chunks1 [] 0).2.1
      else (d :: ds, (greedyFill w chunks1 [] 0).2.1)).1.flatten) = chunks1.flatten
    rw [hrest] at hg
    simp only [List.flatten_nil, List.nil_append] at hg
    by_cases hd : w < (d.length : Int)
    · rw [if_pos hd, handleLongWord_cons]
      simp only [List.flatten_append, List.flatten_cons, List.flatten_nil, List.append_nil]
      generalize (if w < 1 then 1
        else (w - ((greedyFill w chunks1 [] 0).2.2 : Int)).toNat) = n
      simp only [List.flatten_cons] at hg
      have hsplit : List.take n d ++ (List.drop n d ++ ds.flatten) = d ++ ds.flatten := by
        rw [← List.append_assoc, List.take_append_drop]
      rw [List.append_assoc, hsplit]
      exact hg
    · rw [if_neg hd]
      simpa using hg

theorem dropTrailingWs_contentF (curLine : List (List Char)) :
    contentF (dropTrailingWs curLine).flatten = contentF curLine.flatten := by
  unfold dropTrailingWs
  split
  · next last hlast =>
    split
    · next hws =>
      have hne : curLine ≠ [] := by
        intro h
        rw [h] at hlast
        simp at hlast
      have hlast' : curLine.getLast hne = last := by
        have := List.getLast?_eq_getLast curLine hne
        rw [hlast] at this
        exact (Option.some.inj this).symm
      conv_rhs => rw [← List.dropLast_append_getLast hne]
      rw [List.flatten_append, contentF_append, hlast']
      simp only [List.flatten_cons, List.flatten_nil, List.append_nil]
      rw [contentF_nil_of_space _ (mem_space_of_pyStrip_nil last hws)]
      simp
    · rfl
  · rfl

theorem wrapCore_contentF (w : Int) (hasLines : Bool) (chunks : List (List Char)) :
    contentF (wrapCore w hasLines chunks).2.flatten ++
      contentF (wrapCore w hasLines chunks).1.flatten = contentF chunks.flatten := by
  unfold wrapCore
  match chunks with
  | [] => simp [contentF]
  | c :: cs =>
    simp only
    rw [dropTrailingWs_contentF, ← contentF_append, fitChunks_flatten]
    by_cases hc : ((pyStrip c).isEmpty && hasLines) = true
    · rw [if_pos hc]
      have hcs : contentF c = [] :=
        contentF_nil_of_space c (mem_space_of_pyStrip_nil c (Bool.and_elim_left hc))
      simp [contentF_append, List.flatten_cons, hcs]
    · rw [if_neg hc]

theorem wrapLoop_contentF (width : Int) (initInd subInd : List Char)
    (hci : contentF initInd = []) (hcs : contentF subInd = []) :
    ∀ (fuel : Nat) (chunks lines out : List (List Char)),
      wrapLoop width initInd subInd fuel chunks lines = .ok out →
      contentF out.flatten = contentF lines.flatten ++ contentF chunks.flatten := by
  intro fuel
  induction fuel with
  | zero =>
    intro chunks lines out h
    unfold wrapLoop at h
    exact absurd h (by simp)
  | succ fuel ih =>
    intro chunks lines out h
    match chunks with
    | [] =>
      unfold wrapLoop at h
      rw [← Except.ok.inj h]
      simp [contentF]
    | c :: cs =>
      simp only [wrapLoop] at h
      rw [wrapStep_fst, wrapStep_snd] at h
      have hind : contentF (if lines.isEmpty then initInd else subInd) = [] := by
        cases hemp : lines.isEmpty <;>
          simp only [hemp, if_true, if_false, Bool.false_eq_true] <;> assumption
      have hcore := wrapCore_contentF
        (width - ((if lines.isEmpty then initInd else subInd) : List Char).length)
        (!lines.isEmpty) (c :: cs)
      by_cases hemp2 : (wrapCore
          (width - ((if lines.isEmpty then initInd else subInd) : List Char).length)
          (!lines.isEmpty) (c :: cs)).2.isEmpty
      · rw [if_pos hemp2, appendLine_none] at h
        rw [ih _ _ _ h]
        rw [List.isEmpty_iff.mp hemp2] at hcore
        simp only [List.flatten_nil] at hcore
        rw [show contentF [] = [] from rfl, List.nil_append] at hcore
        rw [hcore]
      · rw [if_neg hemp2, appendLine_some] at h
        rw [ih _ _ _ h]
        rw [List.flatten_append, contentF_append]
        simp only [List.flatten_cons, List.flatten_nil, List.append_nil]
        rw [contentF_append, hind, List.nil_append]
        rw [List.append_assoc, hcore]
        rw [List.flatten_cons]

theorem expandTabsAux_contentF : ∀ (t : List Char) (col : Nat),
    contentF (expandTabsAux col t) = contentF t := by
  intro t
  induction t with
  | nil => intro col; rfl
  | cons c t ih =>
    intro col
    unfold expandTabsAux
    by_cases h1 : (c == '\t') = true
    · rw [if_pos h1, contentF_append, contentF_nil_of_space _ ?_, List.nil_append, ih]
      · rw [eq_of_beq h1]
        unfold contentF
        rw [List.filter_cons_of_neg (by decide)]
      · intro x hx
        rw [List.eq_of_mem_replicate hx]
        decide
    · rw [if_neg h1]
      by_cases h2 : (c == '\n' || c == '\r') = true
      · rw [if_pos h2]
        unfold contentF
        rcases Bool.or_eq_true_iff.mp h2 with h | h
        · rw [eq_of_beq h, List.filter_cons_of_neg (by decide),
            List.filter_cons_of_neg (by decide)]
          exact ih 0
        · rw [eq_of_beq h, List.filter_cons_of_neg (by decide),
            List.filter_cons_of_neg (by decide)]
          exact ih 0
      · rw [if_neg h2]
        unfold contentF
        rw [List.filter_cons, List.filter_cons]
        by_cases h3 : contentChar c = true
        · rw [if_pos h3, if_pos h3]
          rw [show (List.filter contentChar (expandTabsAux (col + 1) t)) =
            List.filter contentChar t from ih (col + 1)]
        · rw [if_neg h3, if_neg h3]
          exact ih (col + 1)

theorem contentF_map_space (t : List Char) :
    contentF (t.map (fun c => if pySpace c then ' ' else c)) = contentF t := by
  induction t with
  | nil => rfl
  | cons c t ih =>
    simp only [List.map_cons]
    unfold contentF at *
    by_cases h : pySpace c = true
    · rw [if_pos h, List.filter_cons_of_neg (by decide),
        List.filter_cons_of_neg (by simp [contentChar, h])]
      exact ih
    · rw [if_neg h]
      rw [List.filter_cons, List.filter_cons]
      by_cases h3 : contentChar c = true
      · rw [if_pos h3, if_pos h3, ih]
      · rw [if_neg h3, if_neg h3]
        exact ih

theorem mungeWhitespace_contentF (t : List Char) :
    contentF (mungeWhitespace t) = contentF t := by
  unfold mungeWhitespace
  rw [contentF_map_space, expandTabsAux_contentF]

theorem splitRunsAux_flatten : ∀ (s : List Char) (p : Bool) (cur : List Char),
    (splitRunsAux p cur s).flatten = cur.reverse ++ s := by
  intro s
  induction s with
  | nil =>
    intro p cur
    simp [splitRunsAux]
  | cons c s ih =>
    intro p cur
    unfold splitRunsAux
    by_cases h : (pySpace c == p) = true
    · rw [if_pos h, ih]
      simp
    · rw [if_neg h]
      simp only [List.flatten_cons, ih (pySpace c) [c]]
      simp

theorem splitRuns_flatten (s : List Char) : (splitRuns s).flatten = s := by
  match s with
  | [] => rfl
  | c :: cs =>
    unfold splitRuns
    rw [splitRunsAux_flatten]
    rfl

theorem contentF_intercalate (ls : List (List Char)) :
    contentF (List.intercalate ['\n'] ls) = contentF ls.flatten := by
  induction ls with
  | nil => rfl
  | cons x ls ih =>
    match ls with
    | [] => simp [List.intercalate, contentF]
    | y :: ls' =>
      unfold List.intercalate at ih ⊢
      rw [List.intersperse_cons_cons]
      simp only [List.flatten_cons]
      rw [contentF_append, contentF_append]
      rw [show contentF ['\n'] = [] from rfl, List.nil_append]
      rw [ih, List.flatten_cons, contentF_append, contentF_append, contentF_append]

/-- Claim C7: the sequence of non-whitespace, non-`%` characters of the
text written by a buffer flush equals that of the joined buffer: reflow
moves line breaks (and inserts indent prefixes and `%` markers) but never
changes the content characters or their order. -/
theorem c7_content_preserved (L : Int) (buf : List (List Char)) (N : Nat)
    (out : List Char) (h : dumpBuffer L buf N = .ok out) :
    contentF out = contentF buf.flatten := by
  unfold dumpBuffer at h
  rcases hd : dumpLines L buf N with e | ls
  · rw [hd] at h
    simp [Except.map] at h
  · rw [hd] at h
    simp only [Except.map] at h
    have hout : out = List.intercalate ['\n'] ls ++ ['\n'] := (Except.ok.inj h).symm
    subst hout
    rw [contentF_append, contentF_intercalate,
      show contentF ['\n'] = [] from rfl, List.append_nil]
    unfold dumpLines pyWrap at hd
    by_cases hw : L ≤ 0
    · rw [if_pos hw] at hd
      exact absurd hd (by simp)
    · rw [if_neg hw] at hd
      have hci : contentF (List.replicate N ' ' ++ ['%']) = [] := by
        rw [contentF_append,
          contentF_nil_of_space _ (fun x hx => by rw [List.eq_of_mem_replicate hx]; decide),
          show contentF ['%'] = [] from rfl]
        rfl
      have hcs : contentF (List.replicate N ' ' ++ ['%', ' ']) = [] := by
        rw [contentF_append,
          contentF_nil_of_space _ (fun x hx => by rw [List.eq_of_mem_replicate hx]; decide),
          show contentF ['%', ' '] = [] from rfl]
        rfl
      rw [wrapLoop_contentF L _ _ hci hcs _ _ _ _ hd]
      rw [show contentF (List.flatten []) = [] from rfl, List.nil_append]
      rw [splitRuns_flatten, mungeWhitespace_contentF]

/-- Claim C7 witness: a concrete flush whose content characters survive
verbatim. -/
theorem c7_content_preserved_witness :
    dumpBuffer 7 [lchars " aa  bb"] 0 = .ok (lchars "% aa\n% bb\n") ∧
    contentF (lchars "% aa\n% bb\n") = contentF (List.flatten [lchars " aa  bb"]) :=
  ⟨by decide, c7_content_preserved 7 [lchars " aa  bb"] 0 _ (by decide)⟩

theorem reflowEligible_eq_not_passThrough (cfg : Config) (line : List Char) :
    reflowEligible cfg line = !(passThrough cfg line) := by
  unfold reflowEligible passThrough
  by_cases hp : startsWithPercent (pyLstrip line) = true
  · rw [if_pos hp, if_pos hp]
    cases h0 : (nLeadingSpaces (uncommentOf line) == 0) <;>
      cases h2 : (cfg.ignoreIndented && decide (2 ≤ nLeadingSpaces (uncommentOf line))) <;>
        simp [h0, h2]
  · rw [if_neg hp, if_neg hp]
    rfl

theorem processLine_eligible (cfg : Config) (st : EngineState) (line : List Char)
    (h : reflowEligible cfg line = true) :
    processLine cfg st line = (do
      let capital ← capitalCheck cfg (uncommentOf line)
      if capital && !(recordIndent st line).buffer.isEmpty then
        (dumpBuffer cfg.lineLength (recordIndent st line).buffer
            (recordIndent st line).indentLevel).map
          (fun d =>
            { recordIndent st line with
              buffer := [uncommentOf line],
              out := (recordIndent st line).out ++ d })
      else
        .ok { recordIndent st line with
              buffer := (recordIndent st line).buffer ++ [uncommentOf line] }) := by
  unfold reflowEligible at h
  by_cases hp : startsWithPercent (pyLstrip line) = true
  · rw [if_pos hp] at h
    obtain ⟨h0, h2⟩ := Bool.and_eq_true_iff.mp h
    have h0' : nLeadingSpaces (uncommentOf line) ≠ 0 := by
      intro hh
      rw [hh] at h0
      simp at h0
    have h2' : (cfg.ignoreIndented && decide (2 ≤ nLeadingSpaces (uncommentOf line))) = false := by
      cases hx : (cfg.ignoreIndented && decide (2 ≤ nLeadingSpaces (uncommentOf line)))
      · rfl
      · rw [hx] at h2
        simp at h2
    unfold processLine
    rw [if_pos hp, if_neg h0', if_neg (by simp [h2'])]
  · rw [if_neg hp] at h
    exact absurd h (by simp)

/-- The buffer invariant: the buffer holds exactly the uncommented forms of
the last `k` processed lines, all of which are reflow-eligible (hence
consecutive, with no intervening non-eligible line). -/
def BufferInv (cfg : Config) (pre : List (List Char)) (st : EngineState) : Prop :=
  ∃ k, k ≤ pre.length ∧
    st.buffer = (pre.drop (pre.length - k)).map uncommentOf ∧
    ∀ l ∈ pre.drop (pre.length - k), reflowEligible cfg l = true

theorem bufferInv_nil_buffer (cfg : Config) (pre : List (List Char)) (st : EngineState)
    (h : st.buffer = []) : BufferInv cfg pre st := by
  refine ⟨0, Nat.zero_le _, ?_, ?_⟩
  · rw [Nat.sub_zero, List.drop_length, h]
    rfl
  · rw [Nat.sub_zero, List.drop_length]
    intro l hl
    exact absurd hl (List.not_mem_nil l)

theorem processLine_inv (cfg : Config) (pre : List (List Char)) (st : EngineState)
    (line : List Char) (st₁ : EngineState) (hInv : BufferInv cfg pre st)
    (h : processLine cfg st line = .ok st₁) : BufferInv cfg (pre ++ [line]) st₁ := by
  by_cases hpass : passThrough cfg line = true
  · rw [processLine_passthrough cfg st line hpass] at h
    rcases hf : flushedOutput cfg st with e | d
    · rw [hf] at h
      exact absurd h (by simp [Except.map])
    · rw [hf] at h
      simp only [Except.map] at h
      have := Except.ok.inj h
      exact bufferInv_nil_buffer cfg _ st₁ (by rw [← this])
  · have helig : reflowEligible cfg line = true := by
      rw [reflowEligible_eq_not_passThrough]
      simp [hpass]
    rw [processLine_eligible cfg st line helig] at h
    rcases hcap : capitalCheck cfg (uncommentOf line) with e | b
    · rw [hcap, exceptBind_err] at h
      exact absurd h (by simp)
    · rw [hcap, exceptBind_ok] at h
      by_cases hb : (b && !(recordIndent st line).buffer.isEmpty) = true
      · rw [if_pos hb] at h
        rcases hd : dumpBuffer cfg.lineLength (recordIndent st line).buffer
            (recordIndent st line).indentLevel with e | d
        · rw [hd] at h
          exact absurd h (by simp [Except.map])
        · rw [hd] at h
          simp only [Except.map] at h
          have hst := Except.ok.inj h
          refine ⟨1, by simp, ?_, ?_⟩
          · rw [← hst]
            simp only [List.length_append, List.length_singleton,
              Nat.add_sub_cancel, List.drop_left]
            rfl
          · simp only [List.length_append, List.length_singleton,
              Nat.add_sub_cancel, List.drop_left]
            intro l hl
            rw [List.mem_singleton.mp hl]
            exact helig
      · rw [if_neg hb] at h
        have hst := Except.ok.inj h
        obtain ⟨k, hk, hbuf, helig'⟩ := hInv
        refine ⟨k + 1, by simp; omega, ?_, ?_⟩
        · rw [← hst]
          have hdrop : (pre ++ [line]).drop ((pre ++ [line]).length - (k + 1)) =
              pre.drop (pre.length - k) ++ [line] := by
            rw [List.length_append, List.length_singleton]
            rw [show pre.length + 1 - (k + 1) = pre.length - k from by omega]
            exact List.drop_append_of_le_length (by omega)
          rw [hdrop, List.map_append, ← hbuf]
          simp [recordIndent_buffer]
        · have hdrop : (pre ++ [line]).drop ((pre ++ [line]).length - (k + 1)) =
              pre.drop (pre.length - k) ++ [line] := by
            rw [List.length_append, List.length_singleton]
            rw [show pre.length + 1 - (k + 1) = pre.length - k from by omega]
            exact List.drop_append_of_le_length (by omega)
          rw [hdrop]
          intro l hl
          rcases List.mem_append.mp hl with hm | hm
          · exact helig' l hm
          · rw [List.mem_singleton.mp hm]
            exact helig

theorem processLines_inv (cfg : Config) : ∀ (ls pre : List (List Char))
    (st st' : EngineState), BufferInv cfg pre st →
    processLines cfg st ls = .ok st' → BufferInv cfg (pre ++ ls) st' := by
  intro ls
  induction ls with
  | nil =>
    intro pre st st' hInv h
    unfold processLines at h
    rw [← Except.ok.inj h, List.append_nil]
    exact hInv
  | cons l ls ih =>
    intro pre st st' hInv h
    unfold processLines at h
    rcases hstep : processLine cfg st l with e | st₁
    · rw [hstep, exceptBind_err] at h
      exact absurd h (by simp)
    · rw [hstep, exceptBind_ok] at h
      have := ih (pre ++ [l]) st₁ st' (processLine_inv cfg pre st l st₁ hInv hstep) h
      rwa [List.append_assoc, List.singleton_append] at this

/-- Claim C3 (amended): at any point of processing, either the buffer is
empty, or its fragments are exactly the uncommented forms of the most
recently processed `k` source lines, all reflow-eligible — so they come
from consecutive eligible lines with no intervening non-eligible line.
(They need not share one leading-space count — see the counterexample.) -/
theorem c3_buffer_invariant (cfg : Config) (pre : List (List Char)) (st : EngineState)
    (h : processLines cfg initState pre = .ok st) : BufferInv cfg pre st := by
  have := processLines_inv cfg pre [] initState st
    (bufferInv_nil_buffer cfg [] initState rfl) h
  rwa [List.nil_append] at this

/-- Claim C3 (amended) witness: after two eligible comment lines the buffer
holds exactly their uncommented forms. -/
theorem c3_buffer_invariant_witness :
    processLines ⟨78, true, false⟩ initState [lchars "% aaa", lchars "  % bbb"] =
      .ok { buffer := [lchars " aaa", lchars " bbb"], indentLevel := 0, out := [] } ∧
    BufferInv ⟨78, true, false⟩ [lchars "% aaa", lchars "  % bbb"]
      { buffer := [lchars " aaa", lchars " bbb"], indentLevel := 0, out := [] } :=
  ⟨by decide,
    c3_buffer_invariant ⟨78, true, false⟩ [lchars "% aaa", lchars "  % bbb"] _ (by decide)⟩

/-- Claim C9 counterexample: with `line_length = 0` (not rejected anywhere),
processing an input with a reflow-eligible comment line does not produce
degenerate wrapping output: it fails with the `ValueError` that
`textwrap._wrap_chunks` raises for a non-positive width. -/
theorem c9_counterexample :
    processFile ⟨0, true, false⟩ (lchars "% a\n") = .error .invalidWidth ∧
    reflowEligible ⟨0, true, false⟩ (lchars "% a") = true := by
  exact ⟨by decide, by decide⟩

theorem dumpBuffer_nonpos (L : Int) (buf : List (List Char)) (N : Nat) (hL : L ≤ 0) :
    dumpBuffer L buf N = .error .invalidWidth := by
  unfold dumpBuffer dumpLines pyWrap
  rw [if_pos hL]
  rfl

theorem reflowEligible_inner_ne (cfg : Config) (line : List Char)
    (h : reflowEligible cfg line = true) : nLeadingSpaces (uncommentOf line) ≠ 0 := by
  unfold reflowEligible at h
  by_cases hp : startsWithPercent (pyLstrip line) = true
  · rw [if_pos hp] at h
    obtain ⟨h0, -⟩ := Bool.and_eq_true_iff.mp h
    intro hh
    rw [hh] at h0
    simp at h0
  · rw [if_neg hp] at h
    exact absurd h (by simp)

theorem processLine_ok_nonpos_buffer (cfg : Config) (st : EngineState) (line : List Char)
    (st₁ : EngineState) (hL : cfg.lineLength ≤ 0)
    (h : processLine cfg st line = .ok st₁)
    (hyp : st.buffer ≠ [] ∨ reflowEligible cfg line = true) : st₁.buffer ≠ [] := by
  by_cases hpass : passThrough cfg line = true
  · rcases hyp with hbuf | helig
    · rw [processLine_passthrough cfg st line hpass] at h
      rw [show flushedOutput cfg st = .error .invalidWidth from by
        unfold flushedOutput
        rw [if_neg (by simp [List.isEmpty_iff, hbuf])]
        exact dumpBuffer_nonpos _ _ _ hL] at h
      exact absurd h (by simp [Except.map])
    · rw [reflowEligible_eq_not_passThrough, hpass] at helig
      exact absurd helig (by simp)
  · have helig : reflowEligible cfg line = true := by
      rw [reflowEligible_eq_not_passThrough]
      simp [hpass]
    rw [processLine_eligible cfg st line helig] at h
    rcases hcap : capitalCheck cfg (uncommentOf line) with e | b
    · rw [hcap, exceptBind_err] at h
      exact absurd h (by simp)
    · rw [hcap, exceptBind_ok] at h
      by_cases hb : (b && !(recordIndent st line).buffer.isEmpty) = true
      · rw [if_pos hb, dumpBuffer_nonpos _ _ _ hL] at h
        exact absurd h (by simp [Except.map])
      · rw [if_neg hb] at h
        rw [← Except.ok.inj h]
        simp

theorem processLine_err_nonpos (cfg : Config) (st : EngineState) (line : List Char)
    (e : PyError) (hL : cfg.lineLength ≤ 0)
    (h : processLine cfg st line = .error e) : e = .invalidWidth := by
  by_cases hpass : passThrough cfg line = true
  · rw [processLine_passthrough cfg st line hpass] at h
    by_cases hbuf : st.buffer.isEmpty
    · rw [show flushedOutput cfg st = .ok [] from by
        unfold flushedOutput
        rw [if_pos hbuf]] at h
      exact absurd h (by simp [Except.map])
    · rw [show flushedOutput cfg st = .error .invalidWidth from by
        unfold flushedOutput
        rw [if_neg hbuf]
        exact dumpBuffer_nonpos _ _ _ hL] at h
      simp only [Except.map] at h
      exact (Except.error.inj h).symm
  · have helig : reflowEligible cfg line = true := by
      rw [reflowEligible_eq_not_passThrough]
      simp [hpass]
    rw [processLine_eligible cfg st line helig] at h
    obtain ⟨b, hcap⟩ := capitalCheck_ok cfg (uncommentOf line)
      (uncommentOf_lstrip_ne_nil line (reflowEligible_inner_ne cfg line helig))
    rw [hcap, exceptBind_ok] at h
    by_cases hb : (b && !(recordIndent st line).buffer.isEmpty) = true
    · rw [if_pos hb, dumpBuffer_nonpos _ _ _ hL] at h
      simp only [Except.map] at h
      exact (Except.error.inj h).symm
    · rw [if_neg hb] at h
      exact absurd h (by simp)

theorem processLines_nonpos (cfg : Config) (hL : cfg.lineLength ≤ 0) :
    ∀ (ls : List (List Char)) (st : EngineState),
      (st.buffer ≠ [] ∨ ∃ l ∈ ls, reflowEligible cfg l = true) →
      processLines cfg st ls = .error .invalidWidth ∨
        ∃ st', processLines cfg st ls = .ok st' ∧ st'.buffer ≠ [] := by
  intro ls
  induction ls with
  | nil =>
    intro st hyp
    rcases hyp with hbuf | ⟨l, hl, -⟩
    · exact Or.inr ⟨st, rfl, hbuf⟩
    · exact absurd hl (List.not_mem_nil l)
  | cons l ls ih =>
    intro st hyp
    unfold processLines
    rcases hstep : processLine cfg st l with e | st₁
    · rw [exceptBind_err]
      exact Or.inl (by rw [processLine_err_nonpos cfg st l e hL hstep])
    · rw [exceptBind_ok]
      rcases hyp with hbuf | ⟨l', hl', helig'⟩
      · exact ih st₁ (Or.inl (processLine_ok_nonpos_buffer cfg st l st₁ hL hstep (Or.inl hbuf)))
      · rcases List.mem_cons.mp hl' with rfl | hmem
        · exact ih st₁
            (Or.inl (processLine_ok_nonpos_buffer cfg st l' st₁ hL hstep (Or.inr helig')))
        · exact ih st₁ (Or.inr ⟨l', hmem, helig'⟩)

/-- Claim C9 (amended): configuration values are not validated — a
non-positive `line_length` is accepted — but processing an input that
contains a reflow-eligible comment line does not produce degenerate
wrapping output: the flush raises `textwrap`'s `ValueError`
("invalid width ... must be > 0"). -/
theorem c9_nonpositive_width_raises (cfg : Config) (content : List Char)
    (hL : cfg.lineLength ≤ 0)
    (h : ∃ l ∈ readLines content, reflowEligible cfg l = true) :
    processFile cfg content = .error .invalidWidth := by
  unfold processFile
  rcases processLines_nonpos cfg hL (readLines content) initState (Or.inr h)
    with herr | ⟨st', hok, hbuf⟩
  · rw [herr, exceptBind_err]
  · rw [hok, exceptBind_ok]
    rw [if_neg (fun hh => hbuf (List.isEmpty_iff.mp hh))]
    rw [dumpBuffer_nonpos _ _ _ hL, exceptBind_err]

/-- Claim C9 (amended) witness: `line_length = 0` with the eligible input
`"% a\n"` raises the modelled `ValueError`. -/
theorem c9_nonpositive_width_raises_witness :
    ((0 : Int) ≤ 0) ∧
    (∃ l ∈ readLines (lchars "% a\n"), reflowEligible ⟨0, true, false⟩ l = true) ∧
    processFile ⟨0, true, false⟩ (lchars "% a\n") = .error .invalidWidth :=
  ⟨by decide, by decide,
    c9_nonpositive_width_raises ⟨0, true, false⟩ (lchars "% a\n") (by decide) (by decide)⟩

set_option maxHeartbeats 1600000 in
theorem splitlinesAux_ne_nil : ∀ (acc s : List Char), acc ≠ [] ∨ s ≠ [] →
    splitlinesAux acc s ≠ [] := by
  intro acc s
  induction acc, s using splitlinesAux.induct with
  | case1 acc hacc =>
    intro hyp
    rcases hyp with h | h
    · exact absurd (List.isEmpty_iff.mp hacc) h
    · exact absurd rfl h
  | case2 acc hacc =>
    intro _
    unfold splitlinesAux
    rw [if_neg hacc]
    simp
  | case3 acc rest ih =>
    intro _
    simp [splitlinesAux]
  | case4 acc c rest hne hbr ih =>
    intro _
    simp [splitlinesAux, hne, hbr]
  | case5 acc c rest hne hbr ih =>
    intro _
    rw [show splitlinesAux acc (c :: rest) = splitlinesAux (c :: acc) rest from by
      simp [splitlinesAux, hne, hbr]]
    exact ih (Or.inl (by simp))

theorem translateNewlines_ne_nil (content : List Char) (h : content ≠ []) :
    translateNewlines content ≠ [] := by
  induction content using translateNewlines.induct with
  | case1 => exact absurd rfl h
  | case2 rest ih => simp [translateNewlines]
  | case3 rest hne ih => simp [translateNewlines, hne]
  | case4 c rest h1 h2 ih => simp [translateNewlines, h1, h2]

theorem readLines_ne_nil (content : List Char) (h : content ≠ []) :
    readLines content ≠ [] := by
  unfold readLines pySplitlines
  exact splitlinesAux_ne_nil [] _ (Or.inr (translateNewlines_ne_nil content h))

theorem dumpBuffer_ok_last (L : Int) (buf : List (List Char)) (N : Nat) (d : List Char)
    (h : dumpBuffer L buf N = .ok d) : d ≠ [] ∧ d.getLast? = some '\n' := by
  unfold dumpBuffer at h
  rcases hd : dumpLines L buf N with e | ls
  · rw [hd] at h
    exact absurd h (by simp [Except.map])
  · rw [hd] at h
    simp only [Except.map] at h
    rw [← Except.ok.inj h]
    refine ⟨by simp, ?_⟩
    rw [List.getLast?_append_of_ne_nil _ (by simp)]
    rfl

/-- The output text written so far is empty or ends with a newline. -/
def NLOut (st : EngineState) : Prop :=
  st.out = [] ∨ st.out.getLast? = some '\n'

theorem processLine_nl (cfg : Config) (st : EngineState) (line : List Char)
    (st₁ : EngineState) (hNL : NLOut st) (h : processLine cfg st line = .ok st₁) :
    NLOut st₁ ∧ (st₁.out ≠ [] ∨ st₁.buffer ≠ []) := by
  by_cases hpass : passThrough cfg line = true
  · rw [processLine_passthrough cfg st line hpass] at h
    rcases hf : flushedOutput cfg st with e | d
    · rw [hf] at h
      exact absurd h (by simp [Except.map])
    · rw [hf] at h
      simp only [Except.map] at h
      rw [← Except.ok.inj h]
      constructor
      · right
        show ((st.out ++ d ++ line) ++ ['\n']).getLast? = some '\n'
        rw [List.getLast?_append_of_ne_nil _ (by simp)]
        rfl
      · left
        simp
  · have helig : reflowEligible cfg line = true := by
      rw [reflowEligible_eq_not_passThrough]
      simp [hpass]
    rw [processLine_eligible cfg st line helig] at h
    rcases hcap : capitalCheck cfg (uncommentOf line) with e | b
    · rw [hcap, exceptBind_err] at h
      exact absurd h (by simp)
    · rw [hcap, exceptBind_ok] at h
      by_cases hb : (b && !(recordIndent st line).buffer.isEmpty) = true
      · rw [if_pos hb] at h
        rcases hdump : dumpBuffer cfg.lineLength (recordIndent st line).buffer
            (recordIndent st line).indentLevel with e | d
        · rw [hdump] at h
          exact absurd h (by simp [Except.map])
        · rw [hdump] at h
          simp only [Except.map] at h
          rw [← Except.ok.inj h]
          obtain ⟨hdne, hdlast⟩ := dumpBuffer_ok_last _ _ _ _ hdump
          refine ⟨Or.inr ?_, Or.inr (by simp)⟩
          show ((recordIndent st line).out ++ d).getLast? = some '\n'
          rw [List.getLast?_append_of_ne_nil _ hdne]
          exact hdlast
      · rw [if_neg hb] at h
        rw [← Except.ok.inj h]
        refine ⟨?_, Or.inr (by simp)⟩
        show NLOut { recordIndent st line with
          buffer := (recordIndent st line).buffer ++ [uncommentOf line] }
        unfold NLOut at hNL ⊢
        simpa [recordIndent_out] using hNL

theorem processLines_nl (cfg : Config) : ∀ (ls : List (List Char)) (st st' : EngineState),
    NLOut st → processLines cfg st ls = .ok st' →
    NLOut st' ∧ (ls = [] → st' = st) ∧ (ls ≠ [] → st'.out ≠ [] ∨ st'.buffer ≠ []) := by
  intro ls
  induction ls with
  | nil =>
    intro st st' hNL h
    unfold processLines at h
    exact ⟨(Except.ok.inj h) ▸ hNL, fun _ => (Except.ok.inj h).symm ▸ rfl,
      fun hn => absurd rfl hn⟩
  | cons l ls ih =>
    intro st st' hNL h
    unfold processLines at h
    rcases hstep : processLine cfg st l with e | st₁
    · rw [hstep, exceptBind_err] at h
      exact absurd h (by simp)
    · rw [hstep, exceptBind_ok] at h
      obtain ⟨hNL₁, hprog₁⟩ := processLine_nl cfg st l st₁ hNL hstep
      obtain ⟨hNL', hnil, hne⟩ := ih st₁ st' hNL₁ h
      refine ⟨hNL', fun hcontra => absurd hcontra (by simp), fun _ => ?_⟩
      rcases hls : ls with _ | ⟨l₂, ls₂⟩
      · rw [hls] at hnil
        rw [hnil rfl]
        exact hprog₁
      · rw [hls] at hne
        exact hne (by simp)

/-- Claim C10: an empty input file produces empty output, and for every
non-empty input a successful rewrite produces output that is non-empty and
ends with a newline character (a missing final newline is added, since
every write appends one). -/
theorem c10_trailing_newline :
    (∀ cfg : Config, processFile cfg [] = .ok []) ∧
    (∀ (cfg : Config) (content out : List Char), processFile cfg content = .ok out →
      content ≠ [] → out ≠ [] ∧ out.getLast? = some '\n') := by
  constructor
  · intro cfg
    rfl
  · intro cfg content out h hne
    unfold processFile at h
    rcases hpl : processLines cfg initState (readLines content) with e | st
    · rw [hpl, exceptBind_err] at h
      exact absurd h (by simp)
    · rw [hpl, exceptBind_ok] at h
      have hsrc := readLines_ne_nil content hne
      obtain ⟨hNL, -, hprog⟩ :=
        processLines_nl cfg (readLines content) initState st (Or.inl rfl) hpl
      by_cases hbuf : st.buffer.isEmpty
      · rw [if_pos hbuf] at h
        have hout : out = st.out := (Except.ok.inj h).symm
        rw [hout]
        have houtne : st.out ≠ [] := by
          rcases hprog hsrc with ho | hb
          · exact ho
          · exact absurd (List.isEmpty_iff.mp hbuf) hb
        rcases hNL with ho | ho
        · exact absurd ho houtne
        · exact ⟨houtne, ho⟩
      · rw [if_neg hbuf] at h
        rcases hd : dumpBuffer cfg.lineLength st.buffer st.indentLevel with e | d
        · rw [hd, exceptBind_err] at h
          exact absurd h (by simp)
        · rw [hd, exceptBind_ok] at h
          have hout : out = st.out ++ d := (Except.ok.inj h).symm
          rw [hout]
          obtain ⟨hdne, hdlast⟩ := dumpBuffer_ok_last _ _ _ _ hd
          refine ⟨by simp [hdne], ?_⟩
          rw [List.getLast?_append_of_ne_nil _ hdne]
          exact hdlast

/-- The text the engine writes when every line passes through verbatim:
each line followed by a newline. -/
def joinNL (ls : List (List Char)) : List Char :=
  (ls.map (· ++ ['\n'])).flatten

theorem isLineBreak_cr : isLineBreak '\r' = true := by decide

theorem splitlinesAux_cons_nonbreak (acc : List Char) (c : Char) (ys : List Char)
    (hbr : isLineBreak c = false) :
    splitlinesAux acc (c :: ys) = splitlinesAux (c :: acc) ys := by
  have hcr : c ≠ '\r' := by
    intro h
    rw [h, isLineBreak_cr] at hbr
    exact Bool.true_eq_false.mp hbr
  have hside : ∀ (r : List Char), c = '\r' → ys = '\n' :: r → False := fun _ h _ => hcr h
  simp [splitlinesAux, hbr, hside]

theorem splitlinesAux_cons_break (acc : List Char) (c : Char) (ys : List Char)
    (hbr : isLineBreak c = true)
    (hside : ∀ (r : List Char), c = '\r' → ys = '\n' :: r → False) :
    splitlinesAux acc (c :: ys) = acc.reverse :: splitlinesAux [] ys := by
  simp [splitlinesAux, hbr, hside]

set_option maxHeartbeats 1600000 in
theorem splitlinesAux_no_break : ∀ (acc s : List Char),
    (∀ c ∈ acc, isLineBreak c = false) →
    ∀ l ∈ splitlinesAux acc s, ∀ c ∈ l, isLineBreak c = false := by
  intro acc s
  induction acc, s using splitlinesAux.induct with
  | case1 acc hacc =>
    intro hcc l hl
    unfold splitlinesAux at hl
    rw [if_pos hacc] at hl
    exact absurd hl (List.not_mem_nil l)
  | case2 acc hacc =>
    intro hcc l hl
    unfold splitlinesAux at hl
    rw [if_neg hacc] at hl
    rw [List.mem_singleton.mp hl]
    intro c hc
    exact hcc c (List.mem_reverse.mp hc)
  | case3 acc rest ih =>
    intro hcc l hl
    rw [show splitlinesAux acc ('\r' :: '\n' :: rest) =
        acc.reverse :: splitlinesAux [] rest from rfl] at hl
    rcases List.mem_cons.mp hl with rfl | hm
    · intro c hc
      exact hcc c (List.mem_reverse.mp hc)
    · exact ih (fun c hc => absurd hc (List.not_mem_nil c)) l hm
  | case4 acc c rest hne hbr ih =>
    intro hcc l hl
    rw [splitlinesAux_cons_break acc c rest hbr hne] at hl
    rcases List.mem_cons.mp hl with rfl | hm
    · intro x hx
      exact hcc x (List.mem_reverse.mp hx)
    · exact ih (fun x hx => absurd hx (List.not_mem_nil x)) l hm
  | case5 acc c rest hne hbr ih =>
    intro hcc l hl
    rw [splitlinesAux_cons_nonbreak acc c rest (Bool.not_eq_true _ ▸ hbr)] at hl
    refine ih ?_ l hl
    intro x hx
    rcases List.mem_cons.mp hx with rfl | hm
    · exact Bool.not_eq_true _ ▸ hbr
    · exact hcc x hm

theorem splitlinesAux_line : ∀ (l acc rest : List Char),
    (∀ c ∈ l, isLineBreak c = false) →
    splitlinesAux acc (l ++ '\n' :: rest) = (acc.reverse ++ l) :: splitlinesAux [] rest := by
  intro l
  induction l with
  | nil =>
    intro acc rest _
    rw [List.nil_append, List.append_nil]
    exact splitlinesAux_cons_break acc '\n' rest (by decide)
      (fun _ h _ => by exact absurd h (by decide))
  | cons c l ih =>
    intro acc rest hl
    rw [List.cons_append,
      splitlinesAux_cons_nonbreak acc c (l ++ '\n' :: rest) (hl c (List.mem_cons_self _ _)),
      ih (c :: acc) rest (fun x hx => hl x (List.mem_cons_of_mem c hx))]
    simp

theorem pySplitlines_joinNL : ∀ (ls : List (List Char)),
    (∀ l ∈ ls, ∀ c ∈ l, isLineBreak c = false) →
    pySplitlines (joinNL ls) = ls := by
  intro ls
  induction ls with
  | nil =>
    intro _
    rfl
  | cons l ls ih =>
    intro h
    unfold pySplitlines joinNL
    simp only [List.map_cons, List.flatten_cons, List.append_assoc, List.singleton_append]
    rw [splitlinesAux_line l [] _ (h l (List.mem_cons_self _ _))]
    rw [show ((ls.map (· ++ ['\n'])).flatten : List Char) = joinNL ls from rfl]
    rw [show (splitlinesAux [] (joinNL ls) : List (List Char)) = pySplitlines (joinNL ls) from rfl]
    rw [ih (fun x hx c hc => h x (List.mem_cons_of_mem l hx) c hc)]
    rfl

theorem translateNewlines_eq_self : ∀ (s : List Char), (∀ c ∈ s, c ≠ '\r') →
    translateNewlines s = s := by
  intro s
  induction s using translateNewlines.induct with
  | case1 =>
    intro _
    rfl
  | case2 rest ih =>
    intro h
    exact absurd rfl (h '\r' (List.mem_cons_self _ _))
  | case3 rest hne ih =>
    intro h
    exact absurd rfl (h '\r' (List.mem_cons_self _ _))
  | case4 c rest h1 h2 ih =>
    intro h
    rw [show translateNewlines (c :: rest) = c :: translateNewlines rest from by
      simp [translateNewlines, h1, h2]]
    rw [ih (fun x hx => h x (List.mem_cons_of_mem c hx))]

theorem readLines_no_break (content : List Char) :
    ∀ l ∈ readLines content, ∀ c ∈ l, isLineBreak c = false :=
  splitlinesAux_no_break [] _ (fun c hc => absurd hc (List.not_mem_nil c))

theorem joinNL_no_cr (ls : List (List Char))
    (h : ∀ l ∈ ls, ∀ c ∈ l, isLineBreak c = false) : ∀ c ∈ joinNL ls, c ≠ '\r' := by
  intro c hc
  unfold joinNL at hc
  obtain ⟨x, hx, hcx⟩ := List.mem_flatten.mp hc
  obtain ⟨l, hl, rfl⟩ := List.mem_map.mp hx
  rcases List.mem_append.mp hcx with hm | hm
  · intro hh
    have := h l hl c hm
    rw [hh, isLineBreak_cr] at this
    exact Bool.true_eq_false.mp this
  · rw [List.mem_singleton.mp hm]
    decide

theorem processLines_passthrough_run (cfg : Config) : ∀ (ls : List (List Char))
    (st : EngineState), st.buffer = [] →
    (∀ l ∈ ls, reflowEligible cfg l = false) →
    ∃ n, processLines cfg st ls = .ok ⟨[], n, st.out ++ joinNL ls⟩ := by
  intro ls
  induction ls with
  | nil =>
    intro st hbuf _
    refine ⟨st.indentLevel, ?_⟩
    unfold processLines
    cases st with
    | mk b i o =>
      simp only at hbuf
      rw [hbuf]
      simp [joinNL]
  | cons l ls ih =>
    intro st hbuf hall
    have hpass : passThrough cfg l = true := by
      have := hall l (List.mem_cons_self _ _)
      rw [reflowEligible_eq_not_passThrough] at this
      cases hp : passThrough cfg l
      · rw [hp] at this
        simp at this
      · rfl
    unfold processLines
    rw [processLine_passthrough cfg st l hpass]
    rw [show flushedOutput cfg st = .ok [] from by
      unfold flushedOutput
      rw [if_pos (by simp [hbuf])]]
    simp only [Except.map]
    rw [exceptBind_ok]
    obtain ⟨n, hn⟩ := ih ⟨[], updatedIndent st l, st.out ++ [] ++ l ++ ['\n']⟩ rfl
      (fun x hx => hall x (List.mem_cons_of_mem l hx))
    refine ⟨n, ?_⟩
    rw [hn]
    simp [joinNL]

theorem processFile_passthrough (cfg : Config) (content : List Char)
    (hall : ∀ l ∈ readLines content, reflowEligible cfg l = false) :
    processFile cfg content = .ok (joinNL (readLines content)) := by
  unfold processFile
  obtain ⟨n, hn⟩ := processLines_passthrough_run cfg (readLines content) initState rfl hall
  rw [hn, exceptBind_ok]
  rfl

/-- Claim C1 (amended): the engine is not idempotent in general (see the
counterexample: a multi-space separator dropped at a wrap break changes the
second run's packing), but it is idempotent on inputs with no
reflow-eligible comment line: every line passes through verbatim, the
output is the lines rejoined with newlines, and a second run reproduces it
exactly. -/
theorem c1_amended_passthrough_idempotent (cfg : Config) (content : List Char)
    (hall : ∀ l ∈ readLines content, reflowEligible cfg l = false) :
    processFile cfg content = .ok (joinNL (readLines content)) ∧
    processFile cfg (joinNL (readLines content)) = .ok (joinNL (readLines content)) := by
  have hnb := readLines_no_break content
  have hsame : readLines (joinNL (readLines content)) = readLines content := by
    rw [show readLines (joinNL (readLines content)) =
      pySplitlines (translateNewlines (joinNL (readLines content))) from rfl]
    rw [translateNewlines_eq_self _ (joinNL_no_cr _ hnb)]
    exact pySplitlines_joinNL _ hnb
  refine ⟨processFile_passthrough cfg content hall, ?_⟩
  have := processFile_passthrough cfg (joinNL (readLines content)) (by rw [hsame]; exact hall)
  rwa [hsame] at this

/-- Claim C1 (amended) witness: an input of one code line and one blank
comment line is reproduced verbatim by both runs. -/
theorem c1_amended_passthrough_idempotent_witness :
    (∀ l ∈ readLines (lchars "abc\n%\n"), reflowEligible ⟨78, true, false⟩ l = false) ∧
    (processFile ⟨78, true, false⟩ (lchars "abc\n%\n") =
      .ok (joinNL (readLines (lchars "abc\n%\n"))) ∧
     processFile ⟨78, true, false⟩ (joinNL (readLines (lchars "abc\n%\n"))) =
      .ok (joinNL (readLines (lchars "abc\n%\n")))) :=
  ⟨by decide,
    c1_amended_passthrough_idempotent ⟨78, true, false⟩ (lchars "abc\n%\n") (by decide)⟩

/-- Claim C10 witness: `"% x"` (no trailing newline) gains one; the empty
file stays empty. -/
theorem c10_trailing_newline_witness :
    processFile ⟨78, true, false⟩ [] = .ok [] ∧
    (processFile ⟨78, true, false⟩ (lchars "% x") = .ok (lchars "% x\n") ∧
      lchars "% x" ≠ [] ∧
      lchars "% x\n" ≠ [] ∧ (lchars "% x\n").getLast? = some '\n') :=
  ⟨c10_trailing_newline.1 ⟨78, true, false⟩,
    by decide, by decide,
    c10_trailing_newline.2 ⟨78, true, false⟩ (lchars "% x") (lchars "% x\n")
      (by decide) (by decide)⟩

end MatlabReflow
